/-
Verification of the backward-graph construction subsystem
(paddle/framework/backward.cc) against its natural-language specification.

The C++ source is shallowly embedded below.  Pure string helpers become Lean
functions on String; the operator tree (OperatorBase / NetOp / RecurrentOp)
becomes a mutual inductive family; the mutable no-grad set and the unique-id
counter are threaded explicitly through the recursion; std::to_string becomes
an executable decimal printer.  Framework pieces that live outside
backward.cc (the name-suffix constants, OperatorBase::Rename, the NetOp
aggregate interface, the gradient registry) are modelled from the spec, as
marked on each definition.
-/
import Mathlib

/- ===================== Naming convention (spec 4.1) ===================== -/

/-- Modelled from the spec: the GradSuffix constant (kGradVarSuffix), defined
outside backward.cc; the spec's examples write gradient names as v@GRAD. -/
def kGradVarSuffix : String := "@GRAD"

/-- Modelled from the spec: the ZeroSuffix constant (kZeroVarSuffix), defined
outside backward.cc; the spec's examples write zero aliases as v@ZERO. -/
def kZeroVarSuffix : String := "@ZERO"

/-- Modelled from the spec: the EmptyName sentinel (kEmptyVarName), defined
outside backward.cc using the framework's @-delimited convention. -/
def kEmptyVarName : String := "@EMPTY@"

/-- StripGrad, from backward.cc line 163: substr(0, size - sizeof(kGradVarSuffix)/sizeof(char) + 1),
i.e. drop the 5-character "@GRAD" suffix; for strings shorter than the suffix
the size_t count wraps and substr returns the whole string. -/
def stripGradSuffix (v : String) : String :=
  if v.length < kGradVarSuffix.length then v else v.dropRight kGradVarSuffix.length

/-- A decimal digit character, as produced by std::to_string. -/
def digitChar (d : Nat) : Char := Char.ofNat (48 + d)

/-- Decimal digits of n, least significant first; the first argument is fuel
(n itself is always enough). -/
def digitsRev : Nat → Nat → List Nat
  | 0, _ => []
  | f + 1, n => if n = 0 then [] else n % 10 :: digitsRev f (n / 10)

/-- Embedding of std::to_string on size_t values. -/
def stdToString (n : Nat) : String :=
  if n = 0 then "0" else String.mk (((digitsRev n n).reverse).map digitChar)

/-- RenameAlias, from backward.cc line 139: name + "@RENAME@" + to_string(uid) + "@" + to_string(i). -/
def renameAliasStr (name : String) (uid i : Nat) : String :=
  name ++ "@RENAME@" ++ stdToString uid ++ "@" ++ stdToString i

/-- Flat-variant rename alias, from backward.cc line 308: out_name + "@RENAME@" + to_string(i)
(no uid infix). -/
def flatRenameAlias (name : String) (i : Nat) : String :=
  name ++ "@RENAME@" ++ stdToString i

/- ===================== Operator descriptors ===================== -/

/-- An operator descriptor: kind string plus ordered slot maps (the attribute
bag is passed through unchanged by the transformation and is omitted). -/
structure OpDesc where
  type : String
  inputs : List (String × List String)
  outputs : List (String × List String)
deriving DecidableEq

/-- Rename every occurrence of a variable name in one slot map. -/
def renameInSlots (old new : String) (m : List (String × List String)) :
    List (String × List String) :=
  m.map (fun sv => (sv.1, sv.2.map (fun v => if v = old then new else v)))

/-- Modelled from the spec: OperatorBase::Rename (defined outside backward.cc)
renames a variable name uniformly across one node's input and output slot maps. -/
def OpDesc.rename (d : OpDesc) (old new : String) : OpDesc :=
  ⟨d.type, renameInSlots old new d.inputs, renameInSlots old new d.outputs⟩

/-- All variable names appearing in a slot map, slot-major, in order. -/
def slotVals (m : List (String × List String)) : List String :=
  (m.map Prod.snd).flatten

/-- The (slot index, value index) positions of a slot map, in the order the
C++ ForEachVarName visits them. -/
def slotPositions : List (String × List String) → List (Nat × Nat)
  | [] => []
  | (_, vs) :: rest =>
      (List.range vs.length).map (fun j => (0, j)) ++
        (slotPositions rest).map (fun p => (p.1 + 1, p.2))

/-- The value currently stored at a position of a slot map. -/
def getSlot (m : List (String × List String)) (p : Nat × Nat) : Option String :=
  match m.get? p.1 with
  | Option.none => Option.none
  | Option.some sv => sv.2.get? p.2

/- ===================== Operator nodes ===================== -/

mutual
/-- An operator node: a leaf descriptor (with an owned step-net slot, used
when the kind is "recurrent"), or a composite NetOp with a kind marker. -/
inductive Op where
  | leaf : OpDesc → StepNet → Op
  | net : String → OpList → Op
deriving DecidableEq
/-- The owned step-net slot of a leaf operator (RecurrentOp::stepnet). -/
inductive StepNet where
  | none : StepNet
  | some : Op → StepNet
deriving DecidableEq
/-- The ordered children of a composite (NetOp::ops_). -/
inductive OpList where
  | nil : OpList
  | cons : Op → OpList → OpList
deriving DecidableEq
end

def toOpList : List Op → OpList
  | [] => OpList.nil
  | o :: os => OpList.cons o (toOpList os)

mutual
/-- Modelled from the spec: the aggregate input interface of a node.  For a
leaf this is its input slot values (OperatorBase::Inputs()); for a composite
the spec gives no slot maps of its own, so the aggregate is the children's
input names (NetOp's aggregated interface lives outside backward.cc),
deduplicated as a set. -/
def Op.inputNames : Op → List String
  | Op.leaf d _ => slotVals d.inputs
  | Op.net _ ops => (OpList.inputNames ops).eraseDups
def OpList.inputNames : OpList → List String
  | OpList.nil => []
  | OpList.cons op rest => Op.inputNames op ++ OpList.inputNames rest
end

mutual
/-- Modelled from the spec: the aggregate output interface of a node
(OperatorBase::Outputs() for a leaf; for a composite, the set of output
variable names the node writes, which the spec's duplicate-writer resolution
records per backward child). -/
def Op.outputNames : Op → List String
  | Op.leaf d _ => slotVals d.outputs
  | Op.net _ ops => (OpList.outputNames ops).eraseDups
def OpList.outputNames : OpList → List String
  | OpList.nil => []
  | OpList.cons op rest => Op.outputNames op ++ OpList.outputNames rest
end

mutual
/-- Modelled from the spec: Rename on a node updates every occurrence of the
name in that node's slot maps; for a composite this reaches the children's
maps (the composite owns no maps of its own in the spec's data model). -/
def Op.rename : Op → String → String → Op
  | Op.leaf d sn, old, new => Op.leaf (d.rename old new) sn
  | Op.net k ops, old, new => Op.net k (OpList.rename ops old new)
def OpList.rename : OpList → String → String → OpList
  | OpList.nil, _, _ => OpList.nil
  | OpList.cons op rest, old, new =>
      OpList.cons (Op.rename op old new) (OpList.rename rest old new)
end

/- ===================== Set and list helpers ===================== -/

/-- Insertion into the no-grad set (std::unordered_set::insert): a no-op when
the name is already present. -/
def setInsert (S : List String) (x : String) : List String :=
  if S.contains x then S else S ++ [x]

/-- AllInSet (backward.cc line 37): whether every name, with the suffix
appended, is in the set.  ForEachVarName flattens the slot map, so the check
is over the aggregate name list. -/
def allNamesInSet (names : List String) (suffix : String) (set : List String) : Bool :=
  names.all (fun n => set.contains (n ++ suffix))

/-- The ForEachVarName loop of backward.cc line 83: insert GradVarName(name)
for every name into the no-grad set. -/
def insertGradNames (S : List String) (names : List String) : List String :=
  names.foldl (fun s n => setInsert s (n ++ kGradVarSuffix)) S

/-- std::vector insert at an index (clamped to the end, which the source
never reaches). -/
def insertAt {α : Type} : Nat → α → List α → List α
  | 0, a, l => a :: l
  | _ + 1, a, [] => [a]
  | n + 1, a, x :: xs => x :: insertAt n a xs

/-- Apply a function to the element at an index, if present. -/
def modifyAt {α : Type} : Nat → (α → α) → List α → List α
  | _, _, [] => []
  | 0, f, x :: xs => f x :: xs
  | n + 1, f, x :: xs => x :: modifyAt n f xs

/-- Record one (output name → writer index) entry of the dup_output_ops
multimap, keeping first-encounter key order. -/
def addDup (m : List (String × List Nat)) (k : String) (i : Nat) :
    List (String × List Nat) :=
  match m with
  | [] => [(k, [i])]
  | (k', v) :: rest => if k' = k then (k', v ++ [i]) :: rest else (k', v) :: addDup rest k i

/-- Stable insertion keeping positions in descending order (the comparator of
backward.cc line 150: l.first > r.first; std::list::sort is stable). -/
def insertPosSorted {α : Type} (p : Nat × α) : List (Nat × α) → List (Nat × α)
  | [] => [p]
  | q :: qs => if p.1 > q.1 then p :: q :: qs else q :: insertPosSorted p qs

/-- Stable sort of the recorded insertions by position, descending. -/
def sortInserts {α : Type} (l : List (Nat × α)) : List (Nat × α) :=
  l.foldl (fun acc p => insertPosSorted p acc) []

/- ===================== Well-known operators ===================== -/

/-- NOP (backward.cc line 48): an empty NetOp of kind "@NOP@". -/
def nopOp : Op := Op.net "@NOP@" OpList.nil

/-- The fill-zeros-like leaf scheduled for a suppressed gradient input
(backward.cc line 169); x is the forward name, y the zero alias. -/
def fillZerosLikeOp (x y : String) : Op :=
  Op.leaf ⟨"fill_zeros_like", [("X", [x])], [("Y", [y])]⟩ StepNet.none

/-- The accumulation leaf of the nested builder (backward.cc line 145): kind
"add", inputs X = the rename aliases, output Out = the original name. -/
def addOp (aliases : List String) (name : String) : Op :=
  Op.leaf ⟨"add", [("X", aliases)], [("Out", [name])]⟩ StepNet.none

/- ===================== Leaf case: the two ForEachVarName loops ===================== -/

/--
The gradient-input loop of backward.cc lines 159-173, visiting the grad op's
input positions in order and reading the live (possibly already renamed)
value at each: a value found in the no-grad set is renamed (the lambda's
grad_input reference makes the rename visible to the CreateOp call, so the
fill op's Y output is the zero alias) and a fill-zeros-like op is appended
to the auxiliary net.
-/
def processGradInputs (S : List String) :
    List (Nat × Nat) → OpDesc → List Op → OpDesc × List Op
  | [], g, net => (g, net)
  | p :: ps, g, net =>
    match getSlot g.inputs p with
    | Option.none => processGradInputs S ps g net
    | Option.some v =>
      if S.contains v then
        let pre := stripGradSuffix v
        processGradInputs S ps (g.rename v (pre ++ kZeroVarSuffix))
          (net ++ [fillZerosLikeOp pre (pre ++ kZeroVarSuffix)])
      else processGradInputs S ps g net

/--
The gradient-output loop of backward.cc lines 175-181: every output whose
live value is in the no-grad set is renamed to the EmptyName sentinel.
-/
def processGradOutputs (S : List String) :
    List (Nat × Nat) → OpDesc → OpDesc
  | [], g => g
  | p :: ps, g =>
    match getSlot g.outputs p with
    | Option.none => processGradOutputs S ps g
    | Option.some v =>
      if S.contains v then processGradOutputs S ps (g.rename v kEmptyVarName)
      else processGradOutputs S ps g

/- ===================== Composite case: duplicate-writer resolution ===================== -/

/-- Collection of dup_output_ops (backward.cc lines 100-113): for each
backward child, indexed by its position local_op_id in the backward net,
record every output name it writes. -/
def collectDups (ops : List Op) : List (String × List Nat) :=
  (ops.enum).foldl
    (fun m p => (Op.outputNames p.2).foldl (fun m out => addDup m out p.1) m) []

/-- The rename loop of backward.cc lines 136-142: for the i-th writer of a
duplicated name, push the alias RenameAlias(name, uid, i) and rename the
writer's occurrences of the name to it. -/
def dupRenameLoop (uid0 : Nat) (name : String) :
    List Nat → Nat → List String × List Op → List String × List Op
  | [], _, st => st
  | id :: rest, i, st =>
      let al := renameAliasStr name uid0 i
      dupRenameLoop uid0 name rest (i + 1)
        (st.1 ++ [al], modifyAt id (fun o => Op.rename o name al) st.2)

/-- One iteration of the duplicate-output loop of backward.cc lines 125-147:
duplicated EmptyName entries and single-writer entries are skipped; otherwise
the writers are renamed and an accumulation op is recorded at the last
writer's index. -/
def processDup (uid0 : Nat) (st : List Op × List (Nat × Op)) (e : String × List Nat) :
    List Op × List (Nat × Op) :=
  if e.1 = kEmptyVarName then st
  else if e.2.length = 1 then st
  else
    let r := dupRenameLoop uid0 e.1 e.2 0 ([], st.1)
    (r.2, st.2 ++ [(e.2.getLastD 0, addOp r.1 e.1)])

/-- Duplicate-writer post-processing of a backward composite's children
(backward.cc lines 115-155): resolve each collected entry, sort the recorded
insertions by position descending, and insert each accumulation op at
last-writer + 1. -/
def backwardNetPost (uid0 : Nat) (bwds : List Op) : List Op :=
  let dups := collectDups bwds
  let r := dups.foldl (processDup uid0) (bwds, [])
  (sortInserts r.2).foldl (fun l pi => insertAt (pi.1 + 1) pi.2 l) r.1

/- ===================== BackwardRecursive ===================== -/

mutual
/--
BackwardRecursive (backward.cc lines 67-207).  The no-grad set and the
unique-id counter, threaded by mutable reference in the source, are passed
and returned explicitly.  The gradient registry(OpRegistry::CreateGradOp)
is abstracted as the gradOf parameter.
-/
def backwardRec (gradOf : OpDesc → OpDesc) (fwd : Op) (S : List String) (uid : Nat) :
    Op × List String × Nat :=
  if allNamesInSet (Op.inputNames fwd) kGradVarSuffix S then (nopOp, S, uid)
  else if allNamesInSet (Op.outputNames fwd) kGradVarSuffix S then
    (nopOp, insertGradNames S (Op.inputNames fwd), uid)
  else
    match fwd with
    | Op.net _ ops =>
        let r := backwardOps gradOf ops S uid
        (Op.net "@GENERATED_BACKWARD@" (toOpList (backwardNetPost r.2.2 r.1)),
          r.2.1, r.2.2 + 1)
    | Op.leaf d sn =>
        let g0 := gradOf d
        let pr := processGradInputs S (slotPositions g0.inputs) g0 []
        let g2 := processGradOutputs S (slotPositions pr.1.outputs) pr.1
        let rsn : StepNet × List String × Nat :=
          if d.type = "recurrent" then
            match sn with
            | StepNet.some s =>
                let rr := backwardRec gradOf s S uid
                (StepNet.some rr.1, rr.2.1, rr.2.2)
            | StepNet.none => (StepNet.none, S, uid)
          else (StepNet.none, S, uid)
        let gradLeaf := Op.leaf g2 rsn.1
        if pr.2 = [] then (gradLeaf, rsn.2.1, rsn.2.2)
        else
          (Op.net "@GENERATED_BACKWARD@" (toOpList (pr.2 ++ [gradLeaf])),
            rsn.2.1, rsn.2.2)
/--
The reverse traversal of a composite's children (backward.cc lines 104-114):
the last forward child is differentiated first, threading the no-grad set and
the counter; backward children are appended in production order.
-/
def backwardOps (gradOf : OpDesc → OpDesc) (ops : OpList) (S : List String) (uid : Nat) :
    List Op × List String × Nat :=
  match ops with
  | OpList.nil => ([], S, uid)
  | OpList.cons op rest =>
      let r := backwardOps gradOf rest S uid
      let b := backwardRec gradOf op r.2.1 r.2.2
      (r.1 ++ [b.1], b.2.1, b.2.2)
end

/- ===================== Backward entry point ===================== -/

/-- The no-grad seeding of Backward (backward.cc lines 213-220): GradName of
the EmptyName sentinel, then GradName of each caller-supplied name. -/
def seedNoGrad (userNoGradVars : List String) : List String :=
  userNoGradVars.foldl (fun s name => setInsert s (name ++ kGradVarSuffix))
    (setInsert [] (kEmptyVarName ++ kGradVarSuffix))

/-- Backward (backward.cc lines 210-223): seed the private no-grad set, start
the counter at zero, and recurse. -/
def backward (gradOf : OpDesc → OpDesc) (fwd : Op) (userNoGradVars : List String) :
    Op × List String × Nat :=
  backwardRec gradOf fwd (seedNoGrad userNoGradVars) 0

/-- The caller-observable frame of Backward: the caller's set is taken by
const reference and only copied from, so the entry point is modelled as
also returning the caller's set as it stands after the call. -/
def backwardEntry (gradOf : OpDesc → OpDesc) (fwd : Op) (callerSet : List String) :
    (Op × List String × Nat) × List String :=
  (backwardRec gradOf fwd (seedNoGrad callerSet) 0, callerSet)

/- ===================== Flat (single-block) variant ===================== -/

/-- InputArgumentNames of a descriptor: all input slot values. -/
def opInputArgNames (d : OpDesc) : List String := slotVals d.inputs

/-- OutputArgumentNames of a descriptor: all output slot values. -/
def opOutputArgNames (d : OpDesc) : List String := slotVals d.outputs

/-- AllGradInSet (backward.cc line 227): every name has its GradVarName in
the set.  (The call sites pass a spurious third argument in the source; the
two-parameter function is the evident intent.) -/
def allGradInSet (names : List String) (set : List String) : Bool :=
  names.all (fun n => set.contains (n ++ kGradVarSuffix))

/-- The fill-zeros loop of CreatBackwardOps (backward.cc lines 259-270) on
one gradient descriptor, visiting its input positions in order; here the
fill descriptor's Y output is the separately computed new_name. -/
def processDescInputs (S : List String) :
    List (Nat × Nat) → OpDesc → List OpDesc → OpDesc × List OpDesc
  | [], g, fills => (g, fills)
  | p :: ps, g, fills =>
    match getSlot g.inputs p with
    | Option.none => processDescInputs S ps g fills
    | Option.some v =>
      if S.contains v then
        let pre := stripGradSuffix v
        let newName := pre ++ kZeroVarSuffix
        processDescInputs S ps (g.rename v newName)
          (fills ++ [⟨"fill_zeros_like", [("X", [pre])], [("Y", [newName])]⟩])
      else processDescInputs S ps g fills

/-- CreatBackwardOps (backward.cc lines 237-282): the flat no-grad propagation
step on one forward descriptor.  Note line 250 inserts GradVarName of the
OUTPUTS into the no-grad set (the nested variant inserts the inputs'), and
line 277 prepends all fill descriptors before all gradient descriptors. -/
def creatBackwardOps (gradsOf : OpDesc → List OpDesc) (d : OpDesc) (S : List String) :
    List OpDesc × List String :=
  if allGradInSet (opInputArgNames d) S then ([], S)
  else if allGradInSet (opOutputArgNames d) S then
    ([], (opOutputArgNames d).foldl (fun s n => setInsert s (n ++ kGradVarSuffix)) S)
  else
    let gds := gradsOf d
    let r := gds.foldl
      (fun (acc : List OpDesc × List OpDesc) dsc =>
        let pr := processDescInputs S (slotPositions dsc.inputs) dsc acc.2
        let d2 := processGradOutputs S (slotPositions pr.1.outputs) pr.1
        (acc.1 ++ [d2], pr.2))
      ([], [])
    (r.2 ++ r.1, S)

/-- Collection of dup_out_ops over the flat gradient list (backward.cc lines
292-297), indexed by grad_desc_idx. -/
def collectDescDups (gds : List OpDesc) : List (String × List Nat) :=
  (gds.enum).foldl
    (fun m p => (opOutputArgNames p.2).foldl (fun m out => addDup m out p.1) m) []

/-- The flat rename loop (backward.cc lines 307-311), using aliases without a
uid infix. -/
def descDupRenameLoop (name : String) :
    List Nat → Nat → List String × List OpDesc → List String × List OpDesc
  | [], _, st => st
  | id :: rest, i, st =>
      let al := flatRenameAlias name i
      descDupRenameLoop name rest (i + 1)
        (st.1 ++ [al], modifyAt id (fun o => OpDesc.rename o name al) st.2)

/-- One iteration of the flat duplicate-output loop (backward.cc lines
302-317): the sum op, of kind "sum", is recorded at the last writer. -/
def processDescDup (st : List OpDesc × List (Nat × OpDesc)) (e : String × List Nat) :
    List OpDesc × List (Nat × OpDesc) :=
  if e.1 ≠ kEmptyVarName ∧ e.2.length > 1 then
    let r := descDupRenameLoop e.1 e.2 0 ([], st.1)
    (r.2, st.2 ++ [(e.2.getLastD 0, ⟨"sum", [("X", r.1)], [("Out", [e.1])]⟩)])
  else st

/-- The gradient-descriptor list AppendBackwardOps computes into its local
grad_op_descs (backward.cc lines 286-324): reverse traversal threading the
no-grad set, duplicate-writer resolution with flat aliases, pending sum ops
sorted by position descending and inserted at last-writer + 1. -/
def appendBackwardScratch (gradsOf : OpDesc → List OpDesc) (blockOps : List OpDesc)
    (S : List String) : List OpDesc :=
  let rev := blockOps.foldr
    (fun op (acc : List OpDesc × List String) =>
      let r := creatBackwardOps gradsOf op acc.2
      (acc.1 ++ r.1, r.2))
    ([], S)
  let gds := rev.1
  let dups := collectDescDups gds
  let pr := dups.foldl processDescDup (gds, [])
  (sortInserts pr.2).foldl (fun l pi => insertAt (pi.1 + 1) pi.2 l) pr.1

/-- AppendBackwardOps (backward.cc lines 284-328).  The final loop meant to
append grad_op_descs to the block (line 326) has an empty body in the source,
so the caller's block is returned unchanged and the computed gradient
descriptors are discarded. -/
def appendBackwardOps (gradsOf : OpDesc → List OpDesc) (blockOps : List OpDesc)
    (S : List String) : List OpDesc :=
  let _ := appendBackwardScratch gradsOf blockOps S
  blockOps

/-- The kind marker of a composite node, if the node is a composite. -/
def netKind : Op → Option String
  | Op.net k _ => Option.some k
  | Op.leaf _ _ => Option.none

/- ===================== Helper lemmas ===================== -/

theorem contains_iff_mem (l : List String) (x : String) : l.contains x = true ↔ x ∈ l :=
  List.elem_iff

theorem allNamesInSet_iff (names : List String) (suffix : String) (set : List String) :
    allNamesInSet names suffix set = true ↔ ∀ n ∈ names, (n ++ suffix) ∈ set := by
  unfold allNamesInSet
  rw [List.all_eq_true]
  constructor
  · intro h n hn
    exact (contains_iff_mem _ _).1 (h n hn)
  · intro h n hn
    exact (contains_iff_mem _ _).2 (h n hn)

theorem setInsert_self (S : List String) (x : String) : x ∈ setInsert S x := by
  unfold setInsert
  by_cases h : S.contains x = true
  · rw [if_pos h]
    exact (contains_iff_mem _ _).1 h
  · rw [if_neg h]
    exact List.mem_append_right _ (List.mem_singleton.2 rfl)

theorem setInsert_preserves (S : List String) (x y : String) (h : y ∈ S) :
    y ∈ setInsert S x := by
  unfold setInsert
  by_cases hc : S.contains x = true
  · rw [if_pos hc]; exact h
  · rw [if_neg hc]; exact List.mem_append_left _ h

theorem insertGradNames_preserves (names : List String) (S : List String) (y : String)
    (h : y ∈ S) : y ∈ insertGradNames S names := by
  induction names generalizing S with
  | nil => exact h
  | cons n rest ih => exact ih _ (setInsert_preserves _ _ _ h)

theorem insertGradNames_mem (names : List String) (S : List String) (x : String)
    (h : x ∈ names) : (x ++ kGradVarSuffix) ∈ insertGradNames S names := by
  induction names generalizing S with
  | nil => cases h
  | cons n rest ih =>
    rcases List.mem_cons.1 h with h1 | h2
    · subst h1
      exact insertGradNames_preserves rest _ _ (setInsert_self S _)
    · exact ih _ h2

/- ===================== Claim C8 ===================== -/

/-- Claim C8: for every forward node whose every input x has GradName(x) in
the no-grad set S, BackwardRecursive returns a single NOP (with S and the
counter untouched); nothing to differentiate is a normal NOP return, never an
error (the embedding is a total function with no error outcome). -/
theorem backwardRec_all_input_grads_suppressed (gradOf : OpDesc → OpDesc) (fwd : Op)
    (S : List String) (uid : Nat)
    (h : ∀ x ∈ Op.inputNames fwd, (x ++ kGradVarSuffix) ∈ S) :
    backwardRec gradOf fwd S uid = (nopOp, S, uid) := by
  have hb : allNamesInSet (Op.inputNames fwd) kGradVarSuffix S = true :=
    (allNamesInSet_iff _ _ _).2 h
  unfold backwardRec
  rw [if_pos hb]

/-- Witness for C8: a concrete mul leaf with both input gradients suppressed
returns a NOP. -/
theorem backwardRec_all_input_grads_suppressed_witness :
    backwardRec (fun d => d)
      (Op.leaf ⟨"mul", [("X", ["a"]), ("Y", ["b"])], [("Out", ["c"])]⟩ StepNet.none)
      ["a@GRAD", "b@GRAD"] 0 = (nopOp, ["a@GRAD", "b@GRAD"], 0) :=
  backwardRec_all_input_grads_suppressed (fun d => d) _ _ 0 (by decide)

/- ===================== Claim C3 ===================== -/

/-- Claim C3: for every forward node whose every output y has GradName(y) in
the no-grad set S, BackwardRecursive returns a single NOP and, on return, the
set additionally contains GradName(x) for every forward input x (everything
previously in the set is preserved, and the counter is untouched). -/
theorem backwardRec_all_output_grads_suppressed (gradOf : OpDesc → OpDesc) (fwd : Op)
    (S : List String) (uid : Nat)
    (h : ∀ y ∈ Op.outputNames fwd, (y ++ kGradVarSuffix) ∈ S) :
    (backwardRec gradOf fwd S uid).1 = nopOp ∧
    (∀ x ∈ Op.inputNames fwd, (x ++ kGradVarSuffix) ∈ (backwardRec gradOf fwd S uid).2.1) ∧
    (∀ s ∈ S, s ∈ (backwardRec gradOf fwd S uid).2.1) ∧
    (backwardRec gradOf fwd S uid).2.2 = uid := by
  have hout : allNamesInSet (Op.outputNames fwd) kGradVarSuffix S = true :=
    (allNamesInSet_iff _ _ _).2 h
  by_cases hin : allNamesInSet (Op.inputNames fwd) kGradVarSuffix S = true
  · unfold backwardRec
    rw [if_pos hin]
    refine ⟨rfl, ?_, fun s hs => hs, rfl⟩
    intro x hx
    exact (allNamesInSet_iff _ _ _).1 hin x hx
  · unfold backwardRec
    rw [if_neg hin, if_pos hout]
    refine ⟨rfl, ?_, ?_, rfl⟩
    · intro x hx
      exact insertGradNames_mem _ _ _ hx
    · intro s hs
      exact insertGradNames_preserves _ _ _ hs

/-- Witness for C3: a concrete mul leaf with its only output gradient
suppressed returns a NOP and the set afterwards contains both input
gradient names. -/
theorem backwardRec_all_output_grads_suppressed_witness :
    (backwardRec (fun d => d)
       (Op.leaf ⟨"mul", [("X", ["a"]), ("Y", ["b"])], [("Out", ["c"])]⟩ StepNet.none)
       ["c@GRAD"] 0).1 = nopOp ∧
    "a@GRAD" ∈ (backwardRec (fun d => d)
       (Op.leaf ⟨"mul", [("X", ["a"]), ("Y", ["b"])], [("Out", ["c"])]⟩ StepNet.none)
       ["c@GRAD"] 0).2.1 ∧
    "b@GRAD" ∈ (backwardRec (fun d => d)
       (Op.leaf ⟨"mul", [("X", ["a"]), ("Y", ["b"])], [("Out", ["c"])]⟩ StepNet.none)
       ["c@GRAD"] 0).2.1 := by
  have h := backwardRec_all_output_grads_suppressed (fun d => d)
    (Op.leaf ⟨"mul", [("X", ["a"]), ("Y", ["b"])], [("Out", ["c"])]⟩ StepNet.none)
    ["c@GRAD"] 0 (by decide)
  exact ⟨h.1, h.2.1 "a" (by decide), h.2.1 "b" (by decide)⟩

/- ===================== Claim C7 ===================== -/

theorem setInsert_mem_iff (S : List String) (y x : String) :
    x ∈ setInsert S y ↔ x ∈ S ∨ x = y := by
  unfold setInsert
  by_cases hc : S.contains y = true
  · rw [if_pos hc]
    constructor
    · exact Or.inl
    · rintro (h | h)
      · exact h
      · subst h; exact (contains_iff_mem _ _).1 hc
  · rw [if_neg hc]
    rw [List.mem_append, List.mem_singleton]

theorem foldl_setInsert_mem_iff (names : List String) (suffix : String)
    (init : List String) (x : String) :
    x ∈ names.foldl (fun s n => setInsert s (n ++ suffix)) init ↔
      x ∈ init ∨ ∃ v ∈ names, x = v ++ suffix := by
  induction names generalizing init with
  | nil => simp
  | cons n rest ih =>
    simp only [List.foldl_cons, ih, setInsert_mem_iff, List.mem_cons]
    constructor
    · rintro ((h | h) | ⟨v, hv, hx⟩)
      · exact Or.inl h
      · exact Or.inr ⟨n, Or.inl rfl, h⟩
      · exact Or.inr ⟨v, Or.inr hv, hx⟩
    · rintro (h | ⟨v, (hv | hv), hx⟩)
      · exact Or.inl (Or.inl h)
      · subst hv; exact Or.inl (Or.inr hx)
      · exact Or.inr ⟨v, hv, hx⟩

/-- Claim C7: Backward starts the recursion with the unique-id counter at
zero and with a no-grad set holding exactly GradName(EmptyName) together
with GradName(v) for each caller-supplied name v. -/
theorem backward_seed_characterization (gradOf : OpDesc → OpDesc) (fwd : Op)
    (user : List String) :
    backward gradOf fwd user = backwardRec gradOf fwd (seedNoGrad user) 0 ∧
    (∀ x, x ∈ seedNoGrad user ↔
      (x = kEmptyVarName ++ kGradVarSuffix ∨ ∃ v ∈ user, x = v ++ kGradVarSuffix)) := by
  refine ⟨rfl, fun x => ?_⟩
  unfold seedNoGrad
  rw [foldl_setInsert_mem_iff, setInsert_mem_iff]
  simp

/- ===================== Claim C10 ===================== -/

mutual
/-- The no-grad set only grows inside BackwardRecursive: every name present
before the call is present after it. -/
theorem backwardRec_set_mono (gradOf : OpDesc → OpDesc) (fwd : Op) (S : List String)
    (uid : Nat) (x : String) (hx : x ∈ S) : x ∈ (backwardRec gradOf fwd S uid).2.1 := by
  unfold backwardRec
  by_cases h1 : allNamesInSet (Op.inputNames fwd) kGradVarSuffix S = true
  · rw [if_pos h1]; exact hx
  · rw [if_neg h1]
    by_cases h2 : allNamesInSet (Op.outputNames fwd) kGradVarSuffix S = true
    · rw [if_pos h2]
      exact insertGradNames_preserves _ _ _ hx
    · rw [if_neg h2]
      match fwd with
      | Op.net k ops =>
        exact backwardOps_set_mono gradOf ops S uid x hx
      | Op.leaf d sn =>
        simp only
        by_cases hr : d.type = "recurrent"
        · rw [if_pos hr]
          match sn with
          | StepNet.some s =>
            simp only
            by_cases hf :
                (processGradInputs S (slotPositions (gradOf d).inputs) (gradOf d) []).2 = []
            · rw [if_pos hf]
              exact backwardRec_set_mono gradOf s S uid x hx
            · rw [if_neg hf]
              exact backwardRec_set_mono gradOf s S uid x hx
          | StepNet.none =>
            simp only
            by_cases hf :
                (processGradInputs S (slotPositions (gradOf d).inputs) (gradOf d) []).2 = []
            · rw [if_pos hf]; exact hx
            · rw [if_neg hf]; exact hx
        · rw [if_neg hr]
          by_cases hf :
              (processGradInputs S (slotPositions (gradOf d).inputs) (gradOf d) []).2 = []
          · rw [if_pos hf]; exact hx
          · rw [if_neg hf]; exact hx
/-- The no-grad set only grows across the reverse traversal of a composite's
children. -/
theorem backwardOps_set_mono (gradOf : OpDesc → OpDesc) (ops : OpList) (S : List String)
    (uid : Nat) (x : String) (hx : x ∈ S) : x ∈ (backwardOps gradOf ops S uid).2.1 := by
  unfold backwardOps
  match ops with
  | OpList.nil => exact hx
  | OpList.cons op rest =>
    exact backwardRec_set_mono gradOf op _ _ x (backwardOps_set_mono gradOf rest S uid x hx)
end

/-- Claim C10: the public entry point never mutates the caller's
user_no_grad_vars set: the caller-observable set after the call is the set
passed in, the recursion operates on a private set seeded by copying the
caller's names with GradSuffix appended, and that private set (which only
grows during the recursion) still holds every seeded name afterwards. -/
theorem backward_frame_caller_set (gradOf : OpDesc → OpDesc) (fwd : Op)
    (user : List String) :
    (backwardEntry gradOf fwd user).2 = user ∧
    (∀ v ∈ user, (v ++ kGradVarSuffix) ∈ seedNoGrad user) ∧
    (∀ x ∈ seedNoGrad user, x ∈ ((backwardEntry gradOf fwd user).1).2.1) := by
  refine ⟨rfl, ?_, ?_⟩
  · intro v hv
    unfold seedNoGrad
    rw [foldl_setInsert_mem_iff]
    exact Or.inr ⟨v, hv, rfl⟩
  · intro x hx
    exact backwardRec_set_mono gradOf fwd (seedNoGrad user) 0 x hx

/-- Witness for C10: with a concrete forward graph whose differentiation
grows the internal set, the caller-observable set is unchanged while the
private set still holds the seeded gradient name. -/
theorem backward_frame_caller_set_witness :
    (backwardEntry (fun d => d)
       (Op.leaf ⟨"mul", [("X", ["a"])], [("Out", ["c"])]⟩ StepNet.none) ["c"]).2 = ["c"] ∧
    "c@GRAD" ∈ ((backwardEntry (fun d => d)
       (Op.leaf ⟨"mul", [("X", ["a"])], [("Out", ["c"])]⟩ StepNet.none) ["c"]).1).2.1 := by
  have h := backward_frame_caller_set (fun d => d)
    (Op.leaf ⟨"mul", [("X", ["a"])], [("Out", ["c"])]⟩ StepNet.none) ["c"]
  exact ⟨h.1, h.2.2 "c@GRAD" (h.2.1 "c" (by decide))⟩

/- ===================== Claim C9 ===================== -/

/-- Decimal value of a least-significant-first digit list. -/
def valRev : List Nat → Nat
  | [] => 0
  | d :: ds => d + 10 * valRev ds

theorem valRev_digitsRev : ∀ f n, n ≤ f → valRev (digitsRev f n) = n
  | 0, n, h => by
    have : n = 0 := Nat.le_zero.1 h
    subst this
    rfl
  | f + 1, n, h => by
    unfold digitsRev
    by_cases hn : n = 0
    · rw [if_pos hn, hn]; rfl
    · rw [if_neg hn]
      have hlt : n / 10 ≤ f := by
        have : n / 10 < n := Nat.div_lt_self (Nat.pos_of_ne_zero hn) (by norm_num)
        omega
      simp only [valRev]
      rw [valRev_digitsRev f (n / 10) hlt]
      exact Nat.mod_add_div n 10

theorem digitsRev_lt_ten : ∀ f n d, d ∈ digitsRev f n → d < 10
  | 0, _, _, h => by cases h
  | f + 1, n, d, h => by
    unfold digitsRev at h
    by_cases hn : n = 0
    · rw [if_pos hn] at h; cases h
    · rw [if_neg hn] at h
      rcases List.mem_cons.1 h with h1 | h2
      · subst h1; exact Nat.mod_lt _ (by norm_num)
      · exact digitsRev_lt_ten f (n / 10) d h2

/-- Numeric value of a digit character. -/
def charVal (c : Char) : Nat := c.toNat - 48

theorem charVal_digitChar : ∀ d < 10, charVal (digitChar d) = d := by decide

theorem digitChar_ne_at : ∀ d < 10, digitChar d ≠ '@' := by decide

theorem map_charVal_map_digitChar (ds : List Nat) (h : ∀ d ∈ ds, d < 10) :
    (ds.map digitChar).map charVal = ds := by
  induction ds with
  | nil => rfl
  | cons d rest ih =>
    simp only [List.map_cons, List.cons.injEq]
    exact ⟨charVal_digitChar d (h d (List.mem_cons_self _ _)),
      ih (fun x hx => h x (List.mem_cons_of_mem _ hx))⟩

theorem string_data_append (s t : String) : (s ++ t).data = s.data ++ t.data := rfl

theorem stdToString_no_at (n : Nat) : '@' ∉ (stdToString n).data := by
  unfold stdToString
  by_cases hn : n = 0
  · rw [if_pos hn]
    decide
  · rw [if_neg hn]
    intro hmem
    rcases List.mem_map.1 hmem with ⟨d, hd, hdc⟩
    have hd10 : d < 10 := digitsRev_lt_ten n n d (List.mem_reverse.1 hd)
    exact digitChar_ne_at d hd10 hdc

theorem stdToString_inj (a b : Nat) (h : stdToString a = stdToString b) : a = b := by
  have hd := congrArg String.data h
  unfold stdToString at hd
  by_cases ha : a = 0 <;> by_cases hb : b = 0
  · omega
  · rw [if_pos ha, if_neg hb] at hd
    have h2 := congrArg (List.map charVal) hd
    rw [map_charVal_map_digitChar _
      (fun d hdm => digitsRev_lt_ten b b d (List.mem_reverse.1 hdm))] at h2
    have h3 : (digitsRev b b).reverse = [0] := by
      rw [← h2]; rfl
    have h4 : digitsRev b b = [0] := by
      have := congrArg List.reverse h3
      rw [List.reverse_reverse] at this
      rw [this]; rfl
    have h5 := valRev_digitsRev b b (Nat.le_refl b)
    rw [h4] at h5
    simp [valRev] at h5
    omega
  · rw [if_neg ha, if_pos hb] at hd
    have h2 := congrArg (List.map charVal) hd
    rw [map_charVal_map_digitChar _
      (fun d hdm => digitsRev_lt_ten a a d (List.mem_reverse.1 hdm))] at h2
    have h3 : (digitsRev a a).reverse = [0] := by
      rw [h2]; rfl
    have h4 : digitsRev a a = [0] := by
      have := congrArg List.reverse h3
      rw [List.reverse_reverse] at this
      rw [this]; rfl
    have h5 := valRev_digitsRev a a (Nat.le_refl a)
    rw [h4] at h5
    simp [valRev] at h5
    omega
  · rw [if_neg ha, if_neg hb] at hd
    have h2 := congrArg (List.map charVal) hd
    rw [map_charVal_map_digitChar _
        (fun d hdm => digitsRev_lt_ten a a d (List.mem_reverse.1 hdm)),
      map_charVal_map_digitChar _
        (fun d hdm => digitsRev_lt_ten b b d (List.mem_reverse.1 hdm))] at h2
    have h3 := congrArg List.reverse h2
    rw [List.reverse_reverse, List.reverse_reverse] at h3
    have h5 := valRev_digitsRev a a (Nat.le_refl a)
    have h6 := valRev_digitsRev b b (Nat.le_refl b)
    rw [h3, h6] at h5
    exact h5.symm

theorem split_at_separator :
    ∀ (l1 : List Char) (l1' l2 l2' : List Char), '@' ∉ l1 → '@' ∉ l1' →
      l1 ++ '@' :: l2 = l1' ++ '@' :: l2' → l1 = l1' ∧ l2 = l2'
  | [], l1', l2, l2', _, h1', h => by
    match l1' with
    | [] =>
      simp only [List.nil_append, List.cons.injEq] at h
      exact ⟨rfl, h.2⟩
    | c :: cs =>
      simp only [List.nil_append, List.cons_append, List.cons.injEq] at h
      exact absurd (h.1 ▸ List.mem_cons_self c cs) (by rw [← h.1] at h1'; exact h1')
  | c :: cs, l1', l2, l2', h1, h1', h => by
    match l1' with
    | [] =>
      simp only [List.cons_append, List.nil_append, List.cons.injEq] at h
      exact absurd (h.1 ▸ List.mem_cons_self c cs) (fun hc => h1 (h.1 ▸ hc))
    | c' :: cs' =>
      simp only [List.cons_append, List.cons.injEq] at h
      have hrec := split_at_separator cs cs' l2 l2'
        (fun hc => h1 (List.mem_cons_of_mem _ hc))
        (fun hc => h1' (List.mem_cons_of_mem _ hc)) h.2
      exact ⟨by rw [h.1, hrec.1], hrec.2⟩

/-- Claim C9: rename aliases are pairwise distinct within one Backward call:
for any two distinct (composite-uid, position) pairs, the alias strings
RenameAlias produces for a gradient-output name differ. -/
theorem renameAlias_unique (name : String) (u1 p1 u2 p2 : Nat)
    (h : ¬(u1 = u2 ∧ p1 = p2)) :
    renameAliasStr name u1 p1 ≠ renameAliasStr name u2 p2 := by
  intro heq
  apply h
  have hd := congrArg String.data heq
  unfold renameAliasStr at hd
  simp only [string_data_append, List.append_assoc] at hd
  have h2 := List.append_cancel_left hd
  have h3 := List.append_cancel_left h2
  have h4 : (stdToString u1).data ++ '@' :: (stdToString p1).data =
      (stdToString u2).data ++ '@' :: (stdToString p2).data := by
    have hat : ("@" : String).data = ['@'] := rfl
    simpa [hat] using h3
  have h5 := split_at_separator _ _ _ _ (stdToString_no_at u1) (stdToString_no_at u2) h4
  exact ⟨stdToString_inj u1 u2 (String.ext h5.1), stdToString_inj p1 p2 (String.ext h5.2)⟩

/-- Witness for C9: two concrete distinct positions under the same uid yield
different alias strings. -/
theorem renameAlias_unique_witness :
    renameAliasStr "x@GRAD" 0 0 ≠ renameAliasStr "x@GRAD" 0 1 :=
  renameAlias_unique "x@GRAD" 0 0 0 1 (by decide)

/- ===================== Leaf-loop lemmas ===================== -/

theorem getSlot_cons_succ (sv : String × List String) (rest : List (String × List String))
    (k j : Nat) : getSlot (sv :: rest) (k + 1, j) = getSlot rest (k, j) := rfl

theorem getSlot_cons_zero (sv : String × List String) (rest : List (String × List String))
    (j : Nat) : getSlot (sv :: rest) (0, j) = sv.2.get? j := rfl

theorem getSlot_mem_slotVals (m : List (String × List String)) :
    ∀ (p : Nat × Nat) (w : String), getSlot m p = Option.some w → w ∈ slotVals m := by
  induction m with
  | nil =>
    intro p w h
    unfold getSlot at h
    simp at h
  | cons sv rest ih =>
    intro p w h
    have hvals : slotVals (sv :: rest) = sv.2 ++ slotVals rest := by
      unfold slotVals
      simp
    rw [hvals, List.mem_append]
    match p with
    | (0, j) =>
      rw [getSlot_cons_zero] at h
      exact Or.inl (List.get?_mem h)
    | (k + 1, j) =>
      rw [getSlot_cons_succ] at h
      exact Or.inr (ih (k, j) w h)

theorem getSlot_renameInSlots (old new : String) (m : List (String × List String))
    (p : Nat × Nat) :
    getSlot (renameInSlots old new m) p =
      (getSlot m p).map (fun v => if v = old then new else v) := by
  unfold getSlot renameInSlots
  rw [List.get?_map]
  match h : m.get? p.1 with
  | Option.none => rfl
  | Option.some sv =>
    simp only [Option.map_some']
    exact List.get?_map _ _ _

theorem slotPositions_nodup (m : List (String × List String)) :
    (slotPositions m).Nodup := by
  induction m with
  | nil => exact List.nodup_nil
  | cons sv rest ih =>
    unfold slotPositions
    refine List.Nodup.append ?_ ?_ ?_
    · exact List.Nodup.map (fun a b hab => by simpa using hab) (List.nodup_range _)
    · exact List.Nodup.map (fun a b hab => by
        cases a; cases b; simpa [Prod.ext_iff] using hab) ih
    · intro p hp hq
      rcases List.mem_map.1 hp with ⟨j, _, hj⟩
      rcases List.mem_map.1 hq with ⟨q, _, hqe⟩
      rw [← hj] at hqe
      simp [Prod.ext_iff] at hqe

theorem processGradInputs_skip (S : List String) :
    ∀ (ps : List (Nat × Nat)) (g : OpDesc) (net : List Op),
      (∀ p ∈ ps, ∀ w, getSlot g.inputs p = Option.some w → w ∉ S) →
      processGradInputs S ps g net = (g, net)
  | [], _, _, _ => rfl
  | p :: ps', g, net, h => by
    unfold processGradInputs
    match hg : getSlot g.inputs p with
    | Option.none =>
      simp only
      exact processGradInputs_skip S ps' g net (fun q hq => h q (List.mem_cons_of_mem _ hq))
    | Option.some v =>
      simp only
      have hns : ¬(S.contains v = true) := fun hc =>
        h p (List.mem_cons_self _ _) v hg ((contains_iff_mem _ _).1 hc)
      rw [if_neg hns]
      exact processGradInputs_skip S ps' g net (fun q hq => h q (List.mem_cons_of_mem _ hq))

theorem processGradOutputs_skip (S : List String) :
    ∀ (ps : List (Nat × Nat)) (g : OpDesc),
      (∀ p ∈ ps, ∀ w, getSlot g.outputs p = Option.some w → w ∉ S) →
      processGradOutputs S ps g = g
  | [], _, _ => rfl
  | p :: ps', g, h => by
    unfold processGradOutputs
    match hg : getSlot g.outputs p with
    | Option.none =>
      simp only
      exact processGradOutputs_skip S ps' g (fun q hq => h q (List.mem_cons_of_mem _ hq))
    | Option.some v =>
      simp only
      have hns : ¬(S.contains v = true) := fun hc =>
        h p (List.mem_cons_self _ _) v hg ((contains_iff_mem _ _).1 hc)
      rw [if_neg hns]
      exact processGradOutputs_skip S ps' g (fun q hq => h q (List.mem_cons_of_mem _ hq))

theorem processGradInputs_single (S : List String) (v : String) (hv : v ∈ S) :
    ∀ (ps : List (Nat × Nat)) (g : OpDesc) (net : List Op),
      ps.Nodup →
      (∀ p ∈ ps, ∀ q ∈ ps, getSlot g.inputs p = Option.some v →
        getSlot g.inputs q = Option.some v → p = q) →
      (∀ p ∈ ps, ∀ w, getSlot g.inputs p = Option.some w → w ≠ v → w ∉ S) →
      (∃ p ∈ ps, getSlot g.inputs p = Option.some v) →
      processGradInputs S ps g net =
        (g.rename v (stripGradSuffix v ++ kZeroVarSuffix),
         net ++ [fillZerosLikeOp (stripGradSuffix v) (stripGradSuffix v ++ kZeroVarSuffix)])
  | [], g, net, _, _, _, hex => absurd hex (by simp)
  | p :: ps', g, net, hnd, hone, hothers, hex => by
    unfold processGradInputs
    match hg : getSlot g.inputs p with
    | Option.none =>
      simp only
      have hex' : ∃ q ∈ ps', getSlot g.inputs q = Option.some v := by
        rcases hex with ⟨q, hq, hqv⟩
        rcases List.mem_cons.1 hq with h1 | h2
        · subst h1; rw [hg] at hqv; cases hqv
        · exact ⟨q, h2, hqv⟩
      exact processGradInputs_single S v hv ps' g net (List.Nodup.of_cons hnd)
        (fun a ha b hb => hone a (List.mem_cons_of_mem _ ha) b (List.mem_cons_of_mem _ hb))
        (fun a ha => hothers a (List.mem_cons_of_mem _ ha)) hex'
    | Option.some w =>
      simp only
      by_cases hw : w = v
      · subst hw
        rw [if_pos ((contains_iff_mem _ _).2 hv)]
        apply processGradInputs_skip
        intro q hq w' hw'
        rw [show (g.rename w (stripGradSuffix w ++ kZeroVarSuffix)).inputs =
            renameInSlots w (stripGradSuffix w ++ kZeroVarSuffix) g.inputs from rfl,
          getSlot_renameInSlots] at hw'
        match hq2 : getSlot g.inputs q with
        | Option.none => rw [hq2] at hw'; cases hw'
        | Option.some w0 =>
          rw [hq2] at hw'
          simp only [Option.map_some', Option.some.injEq] at hw'
          by_cases hw0 : w0 = w
          · subst hw0
            have : p = q := hone p (List.mem_cons_self _ _) q (List.mem_cons_of_mem _ hq) hg hq2
            subst this
            exact absurd hq (List.Nodup.not_mem hnd)
          · rw [if_neg hw0] at hw'
            subst hw'
            exact hothers q (List.mem_cons_of_mem _ hq) w0 hq2 hw0
      · have hnw : w ∉ S := hothers p (List.mem_cons_self _ _) w hg hw
        rw [if_neg (fun hc => hnw ((contains_iff_mem _ _).1 hc))]
        have hex' : ∃ q ∈ ps', getSlot g.inputs q = Option.some v := by
          rcases hex with ⟨q, hq, hqv⟩
          rcases List.mem_cons.1 hq with h1 | h2
          · subst h1; rw [hg] at hqv
            exact absurd (Option.some.inj hqv) hw
          · exact ⟨q, h2, hqv⟩
        exact processGradInputs_single S v hv ps' g net (List.Nodup.of_cons hnd)
          (fun a ha b hb => hone a (List.mem_cons_of_mem _ ha) b (List.mem_cons_of_mem _ hb))
          (fun a ha => hothers a (List.mem_cons_of_mem _ ha)) hex'

theorem processGradInputs_net_extends (S : List String) :
    ∀ (ps : List (Nat × Nat)) (g : OpDesc) (net : List Op),
      ∃ extra, (processGradInputs S ps g net).2 = net ++ extra
  | [], g, net => ⟨[], by simp [processGradInputs]⟩
  | p :: ps', g, net => by
    unfold processGradInputs
    match hg : getSlot g.inputs p with
    | Option.none =>
      simp only
      exact processGradInputs_net_extends S ps' g net
    | Option.some v =>
      simp only
      by_cases hc : S.contains v = true
      · rw [if_pos hc]
        rcases processGradInputs_net_extends S ps'
          (g.rename v (stripGradSuffix v ++ kZeroVarSuffix))
          (net ++ [fillZerosLikeOp (stripGradSuffix v) (stripGradSuffix v ++ kZeroVarSuffix)])
          with ⟨e, he⟩
        exact ⟨[fillZerosLikeOp (stripGradSuffix v) (stripGradSuffix v ++ kZeroVarSuffix)] ++ e,
          by rw [he, List.append_assoc]⟩
      · rw [if_neg hc]
        exact processGradInputs_net_extends S ps' g net

theorem processGradInputs_triggers (S : List String) :
    ∀ (ps : List (Nat × Nat)) (g : OpDesc) (net : List Op),
      (∃ p ∈ ps, ∃ w, getSlot g.inputs p = Option.some w ∧ w ∈ S) →
      ∃ extra, extra ≠ [] ∧ (processGradInputs S ps g net).2 = net ++ extra
  | [], _, _, hex => absurd hex (by simp)
  | p :: ps', g, net, hex => by
    unfold processGradInputs
    match hg : getSlot g.inputs p with
    | Option.none =>
      simp only
      apply processGradInputs_triggers S ps' g net
      rcases hex with ⟨q, hq, w, hw, hwS⟩
      rcases List.mem_cons.1 hq with h1 | h2
      · subst h1; rw [hg] at hw; cases hw
      · exact ⟨q, h2, w, hw, hwS⟩
    | Option.some u =>
      simp only
      by_cases hc : S.contains u = true
      · rw [if_pos hc]
        rcases processGradInputs_net_extends S ps'
          (g.rename u (stripGradSuffix u ++ kZeroVarSuffix))
          (net ++ [fillZerosLikeOp (stripGradSuffix u) (stripGradSuffix u ++ kZeroVarSuffix)])
          with ⟨e, he⟩
        refine ⟨fillZerosLikeOp (stripGradSuffix u) (stripGradSuffix u ++ kZeroVarSuffix) :: e,
          by simp, ?_⟩
        rw [he, List.append_assoc]
        rfl
      · rw [if_neg hc]
        apply processGradInputs_triggers S ps' g net
        rcases hex with ⟨q, hq, w, hw, hwS⟩
        rcases List.mem_cons.1 hq with h1 | h2
        · subst h1; rw [hg] at hw
          have := Option.some.inj hw
          subst this
          exact absurd ((contains_iff_mem _ _).2 hwS) hc
        · exact ⟨q, h2, w, hw, hwS⟩

/-- Evaluation of the leaf branch of BackwardRecursive once both skip checks
have failed (backward.cc lines 156-206). -/
theorem backwardRec_leaf_eval (gradOf : OpDesc → OpDesc) (d : OpDesc) (sn : StepNet)
    (S : List String) (uid : Nat)
    (hin : ¬(allNamesInSet (Op.inputNames (Op.leaf d sn)) kGradVarSuffix S = true))
    (hout : ¬(allNamesInSet (Op.outputNames (Op.leaf d sn)) kGradVarSuffix S = true)) :
    backwardRec gradOf (Op.leaf d sn) S uid =
      (let g0 := gradOf d
       let pr := processGradInputs S (slotPositions g0.inputs) g0 []
       let g2 := processGradOutputs S (slotPositions pr.1.outputs) pr.1
       let rsn : StepNet × List String × Nat :=
         if d.type = "recurrent" then
           match sn with
           | StepNet.some s =>
               let rr := backwardRec gradOf s S uid
               (StepNet.some rr.1, rr.2.1, rr.2.2)
           | StepNet.none => (StepNet.none, S, uid)
         else (StepNet.none, S, uid)
       let gradLeaf := Op.leaf g2 rsn.1
       if pr.2 = [] then (gradLeaf, rsn.2.1, rsn.2.2)
       else
         (Op.net "@GENERATED_BACKWARD@" (toOpList (pr.2 ++ [gradLeaf])),
           rsn.2.1, rsn.2.2)) := by
  conv_lhs => unfold backwardRec
  rw [if_neg hin, if_neg hout]
  cases sn <;> rfl

/- ===================== Claim C2 ===================== -/

/-- Claim C2: when a leaf is differentiated and a gradient-input name v of the
produced gradient descriptor is in the no-grad set (occurring at exactly one
input position, with no other suppressed names in play so that the single
rewrite is isolated), that input is renamed to the zero alias
StripGrad(v) + ZeroSuffix, and a fill-zeros-like operator with input
X = StripGrad(v) and output Y = the renamed zero-alias name is placed before
the gradient operator in the resulting composite. -/
theorem backwardRec_zero_fill (gradOf : OpDesc → OpDesc) (d : OpDesc) (S : List String)
    (uid : Nat) (v : String)
    (hin : allNamesInSet (Op.inputNames (Op.leaf d StepNet.none)) kGradVarSuffix S = false)
    (hout : allNamesInSet (Op.outputNames (Op.leaf d StepNet.none)) kGradVarSuffix S = false)
    (hv : v ∈ S)
    (hone : ∀ p ∈ slotPositions (gradOf d).inputs, ∀ q ∈ slotPositions (gradOf d).inputs,
      getSlot (gradOf d).inputs p = Option.some v →
      getSlot (gradOf d).inputs q = Option.some v → p = q)
    (hothers : ∀ p ∈ slotPositions (gradOf d).inputs, ∀ w,
      getSlot (gradOf d).inputs p = Option.some w → w ≠ v → w ∉ S)
    (hex : ∃ p ∈ slotPositions (gradOf d).inputs, getSlot (gradOf d).inputs p = Option.some v)
    (houts : ∀ w ∈ slotVals
      (OpDesc.rename (gradOf d) v (stripGradSuffix v ++ kZeroVarSuffix)).outputs, w ∉ S) :
    backwardRec gradOf (Op.leaf d StepNet.none) S uid =
      (Op.net "@GENERATED_BACKWARD@" (toOpList
        [fillZerosLikeOp (stripGradSuffix v) (stripGradSuffix v ++ kZeroVarSuffix),
         Op.leaf (OpDesc.rename (gradOf d) v (stripGradSuffix v ++ kZeroVarSuffix))
           StepNet.none]),
       S, uid) := by
  have hpr := processGradInputs_single S v hv (slotPositions (gradOf d).inputs) (gradOf d) []
    (slotPositions_nodup _) hone hothers hex
  have hg2 := processGradOutputs_skip S
    (slotPositions (OpDesc.rename (gradOf d) v (stripGradSuffix v ++ kZeroVarSuffix)).outputs)
    (OpDesc.rename (gradOf d) v (stripGradSuffix v ++ kZeroVarSuffix))
    (fun p _ w hw => houts w (getSlot_mem_slotVals _ p w hw))
  rw [backwardRec_leaf_eval gradOf d StepNet.none S uid
    (by rw [hin]; simp) (by rw [hout]; simp)]
  simp only [hpr, hg2, List.nil_append, ite_self]
  rw [if_neg (by simp : ¬(([fillZerosLikeOp (stripGradSuffix v)
    (stripGradSuffix v ++ kZeroVarSuffix)] : List Op) = []))]
  rfl

/-- Witness for C2: differentiating a concrete add leaf with a@GRAD
suppressed: the gradient input a@GRAD becomes a@ZERO and a fill-zeros-like
op with X = a, Y = a@ZERO precedes the gradient op. -/
theorem backwardRec_zero_fill_witness :
    backwardRec
      (fun dd => if dd.type = "add"
        then ⟨"add_grad", [("Out@GRAD", ["c@GRAD"]), ("XG", ["a@GRAD"])],
          [("Y@GRAD", ["b@GRAD"])]⟩
        else ⟨dd.type, [], []⟩)
      (Op.leaf ⟨"add", [("X", ["a"]), ("Y", ["b"])], [("Out", ["c"])]⟩ StepNet.none)
      ["a@GRAD"] 0 =
    (Op.net "@GENERATED_BACKWARD@" (toOpList
      [fillZerosLikeOp "a" "a@ZERO",
       Op.leaf ⟨"add_grad", [("Out@GRAD", ["c@GRAD"]), ("XG", ["a@ZERO"])],
         [("Y@GRAD", ["b@GRAD"])]⟩ StepNet.none]),
     ["a@GRAD"], 0) := by
  have h := backwardRec_zero_fill
    (fun dd => if dd.type = "add"
      then ⟨"add_grad", [("Out@GRAD", ["c@GRAD"]), ("XG", ["a@GRAD"])],
        [("Y@GRAD", ["b@GRAD"])]⟩
      else ⟨dd.type, [], []⟩)
    ⟨"add", [("X", ["a"]), ("Y", ["b"])], [("Out", ["c"])]⟩
    ["a@GRAD"] 0 "a@GRAD"
    (by decide) (by decide) (by decide) (by decide) (by decide) (by decide) (by decide)
  exact h.trans (by decide)

/- ===================== Claim C5 (corrected) ===================== -/

/-- Counterexample to claim C5 as stated: at a concrete leaf whose
differentiation needs a zero-fill, the synthesized composite carries the
kind "@GENERATED_BACKWARD@", not the claim's "@generated-backward@". -/
theorem generated_backward_kind_counterexample :
    netKind (backwardRec
      (fun _ => ⟨"sub_grad", [("OG", ["r@GRAD"]), ("PG", ["p@GRAD"])], [("QG", ["q@GRAD"])]⟩)
      (Op.leaf ⟨"sub", [("X", ["p"]), ("Y", ["q"])], [("Out", ["r"])]⟩ StepNet.none)
      ["p@GRAD"] 0).1 = Option.some "@GENERATED_BACKWARD@" ∧
    ¬("@GENERATED_BACKWARD@" = "@generated-backward@") := by
  decide

/-- Claim C5 as amended: in the leaf case, if differentiation yields exactly
one gradient operator with no auxiliary zero-fill operators, BackwardRecursive
returns it directly as a leaf; when a zero-fill arises the sequence is
wrapped in a fresh nonempty composite, and every synthesized composite
returned (including the composite case) carries the kind
"@GENERATED_BACKWARD@". -/
theorem backwardRec_result_shapes (gradOf : OpDesc → OpDesc) (S : List String) (uid : Nat) :
    (∀ d : OpDesc,
      allNamesInSet (Op.inputNames (Op.leaf d StepNet.none)) kGradVarSuffix S = false →
      allNamesInSet (Op.outputNames (Op.leaf d StepNet.none)) kGradVarSuffix S = false →
      (∀ w ∈ slotVals (gradOf d).inputs, w ∉ S) →
      backwardRec gradOf (Op.leaf d StepNet.none) S uid =
        (Op.leaf (processGradOutputs S (slotPositions (gradOf d).outputs) (gradOf d))
          StepNet.none, S, uid)) ∧
    (∀ d : OpDesc,
      allNamesInSet (Op.inputNames (Op.leaf d StepNet.none)) kGradVarSuffix S = false →
      allNamesInSet (Op.outputNames (Op.leaf d StepNet.none)) kGradVarSuffix S = false →
      (∃ p ∈ slotPositions (gradOf d).inputs, ∃ w,
        getSlot (gradOf d).inputs p = Option.some w ∧ w ∈ S) →
      ∃ chs : List Op, chs ≠ [] ∧
        backwardRec gradOf (Op.leaf d StepNet.none) S uid =
          (Op.net "@GENERATED_BACKWARD@" (toOpList chs), S, uid)) ∧
    (∀ (ty : String) (ops : OpList),
      allNamesInSet (Op.inputNames (Op.net ty ops)) kGradVarSuffix S = false →
      allNamesInSet (Op.outputNames (Op.net ty ops)) kGradVarSuffix S = false →
      ∃ (chs : OpList) (S2 : List String) (u2 : Nat),
        backwardRec gradOf (Op.net ty ops) S uid = (Op.net "@GENERATED_BACKWARD@" chs, S2, u2)) := by
  refine ⟨?_, ?_, ?_⟩
  · intro d hin hout hnofill
    have hpr := processGradInputs_skip S (slotPositions (gradOf d).inputs) (gradOf d) []
      (fun p _ w hw => hnofill w (getSlot_mem_slotVals _ p w hw))
    rw [backwardRec_leaf_eval gradOf d StepNet.none S uid
      (by rw [hin]; simp) (by rw [hout]; simp)]
    simp only [hpr, ite_self]
    rfl
  · intro d hin hout hfill
    rcases processGradInputs_triggers S (slotPositions (gradOf d).inputs) (gradOf d) [] hfill
      with ⟨extra, hne, hext⟩
    rw [List.nil_append] at hext
    rw [backwardRec_leaf_eval gradOf d StepNet.none S uid
      (by rw [hin]; simp) (by rw [hout]; simp)]
    simp only [ite_self]
    refine ⟨(processGradInputs S (slotPositions (gradOf d).inputs) (gradOf d) []).2 ++
      [Op.leaf (processGradOutputs S
        (slotPositions (processGradInputs S (slotPositions (gradOf d).inputs)
          (gradOf d) []).1.outputs)
        (processGradInputs S (slotPositions (gradOf d).inputs) (gradOf d) []).1)
        StepNet.none], by simp, ?_⟩
    rw [if_neg (by rw [hext]; exact hne)]
  · intro ty ops hin hout
    refine ⟨toOpList (backwardNetPost (backwardOps gradOf ops S uid).2.2
        (backwardOps gradOf ops S uid).1),
      (backwardOps gradOf ops S uid).2.1, (backwardOps gradOf ops S uid).2.2 + 1, ?_⟩
    conv_lhs => unfold backwardRec
    rw [if_neg (by rw [hin]; simp), if_neg (by rw [hout]; simp)]

/-- Witness for the amended C5: at the concrete sub leaf of the
counterexample the result is a nonempty composite of that kind, and at a
concrete leaf with no zero-fill the gradient operator is returned directly
as a leaf. -/
theorem backwardRec_result_shapes_witness :
    (∃ chs : List Op, chs ≠ [] ∧
      backwardRec
        (fun _ => ⟨"sub_grad", [("OG", ["r@GRAD"]), ("PG", ["p@GRAD"])], [("QG", ["q@GRAD"])]⟩)
        (Op.leaf ⟨"sub", [("X", ["p"]), ("Y", ["q"])], [("Out", ["r"])]⟩ StepNet.none)
        ["p@GRAD"] 0 =
        (Op.net "@GENERATED_BACKWARD@" (toOpList chs), ["p@GRAD"], 0)) ∧
    backwardRec
      (fun _ => ⟨"sub_grad", [("OG", ["r@GRAD"])], [("QG", ["q@GRAD"])]⟩)
      (Op.leaf ⟨"sub", [("X", ["p"]), ("Y", ["q"])], [("Out", ["r"])]⟩ StepNet.none)
      ["p@GRAD"] 0 =
      (Op.leaf ⟨"sub_grad", [("OG", ["r@GRAD"])], [("QG", ["q@GRAD"])]⟩ StepNet.none,
        ["p@GRAD"], 0) := by
  constructor
  · exact (backwardRec_result_shapes
      (fun _ => ⟨"sub_grad", [("OG", ["r@GRAD"]), ("PG", ["p@GRAD"])], [("QG", ["q@GRAD"])]⟩)
      ["p@GRAD"] 0).2.1
      ⟨"sub", [("X", ["p"]), ("Y", ["q"])], [("Out", ["r"])]⟩
      (by decide) (by decide) (by decide)
  · exact ((backwardRec_result_shapes
      (fun _ => ⟨"sub_grad", [("OG", ["r@GRAD"])], [("QG", ["q@GRAD"])]⟩)
      ["p@GRAD"] 0).1
      ⟨"sub", [("X", ["p"]), ("Y", ["q"])], [("Out", ["r"])]⟩
      (by decide) (by decide) (by decide)).trans (by decide)

/- ===================== Claim C6 ===================== -/

/-- Claim C6: when the forward leaf's kind is "recurrent", the builder
recursively invokes BackwardRecursive on the forward step-net, passing the
same no-grad set S and the same uid counter, and installs the returned node
as the step-net of the gradient operator (stated for differentiations with
no zero-fills, where the gradient operator is returned directly; the
recursion's resulting set and counter are the ones returned). -/
theorem backwardRec_recurrent_stepnet (gradOf : OpDesc → OpDesc) (d : OpDesc) (step : Op)
    (S : List String) (uid : Nat)
    (htype : d.type = "recurrent")
    (hin : allNamesInSet (Op.inputNames (Op.leaf d (StepNet.some step))) kGradVarSuffix S = false)
    (hout : allNamesInSet (Op.outputNames (Op.leaf d (StepNet.some step))) kGradVarSuffix S = false)
    (hnofill : ∀ w ∈ slotVals (gradOf d).inputs, w ∉ S) :
    backwardRec gradOf (Op.leaf d (StepNet.some step)) S uid =
      (Op.leaf (processGradOutputs S (slotPositions (gradOf d).outputs) (gradOf d))
        (StepNet.some (backwardRec gradOf step S uid).1),
       (backwardRec gradOf step S uid).2.1,
       (backwardRec gradOf step S uid).2.2) := by
  have hpr := processGradInputs_skip S (slotPositions (gradOf d).inputs) (gradOf d) []
    (fun p _ w hw => hnofill w (getSlot_mem_slotVals _ p w hw))
  rw [backwardRec_leaf_eval gradOf d (StepNet.some step) S uid
    (by rw [hin]; simp) (by rw [hout]; simp)]
  simp only [hpr, if_pos htype]
  rfl

/-- Witness for C6: a concrete recurrent leaf owning a tanh step-net; the
gradient leaf carries the backward of the step-net computed with the same
set and counter. -/
theorem backwardRec_recurrent_stepnet_witness :
    backwardRec (fun dd => ⟨dd.type ++ "_grad", [("G", ["g"])], [("O", ["o" ++ dd.type])]⟩)
      (Op.leaf ⟨"recurrent", [("X", ["x"])], [("H", ["h"])]⟩
        (StepNet.some (Op.leaf ⟨"tanh", [("X", ["s"])], [("Out", ["t"])]⟩ StepNet.none)))
      ["@EMPTY@@GRAD"] 0 =
    (Op.leaf ⟨"recurrent_grad", [("G", ["g"])], [("O", ["orecurrent"])]⟩
      (StepNet.some (Op.leaf ⟨"tanh_grad", [("G", ["g"])], [("O", ["otanh"])]⟩ StepNet.none)),
     ["@EMPTY@@GRAD"], 0) := by
  have h := backwardRec_recurrent_stepnet
    (fun dd => ⟨dd.type ++ "_grad", [("G", ["g"])], [("O", ["o" ++ dd.type])]⟩)
    ⟨"recurrent", [("X", ["x"])], [("H", ["h"])]⟩
    (Op.leaf ⟨"tanh", [("X", ["s"])], [("Out", ["t"])]⟩ StepNet.none)
    ["@EMPTY@@GRAD"] 0 (by decide) (by decide) (by decide) (by decide)
  exact h.trans (by decide)

/- ===================== Claim C1 ===================== -/

theorem insertAt_length {α : Type} (a : α) :
    ∀ (n : Nat) (l : List α), (insertAt n a l).length = l.length + 1
  | 0, l => rfl
  | _ + 1, [] => rfl
  | m + 1, x :: xs => by
    show (x :: insertAt m a xs).length = (x :: xs).length + 1
    simp [insertAt_length a m xs]

theorem insertAt_get?_self {α : Type} (a : α) :
    ∀ (n : Nat) (l : List α), n ≤ l.length → (insertAt n a l).get? n = Option.some a
  | 0, l, _ => rfl
  | m + 1, [], h => by simp at h
  | m + 1, x :: xs, h => by
    show (x :: insertAt m a xs).get? (m + 1) = Option.some a
    simp only [List.get?]
    exact insertAt_get?_self a m xs (by simpa using h)

theorem insertAt_get?_lt {α : Type} (a : α) :
    ∀ (n j : Nat) (l : List α), j < n → n ≤ l.length →
      (insertAt n a l).get? j = l.get? j
  | 0, j, l, h, _ => by omega
  | m + 1, j, [], _, hn => by simp at hn
  | m + 1, 0, x :: xs, _, _ => rfl
  | m + 1, j + 1, x :: xs, h, hn => by
    show (x :: insertAt m a xs).get? (j + 1) = (x :: xs).get? (j + 1)
    simp only [List.get?]
    exact insertAt_get?_lt a m j xs (by omega) (by simpa using hn)

theorem insertAt_get?_ge {α : Type} (a : α) :
    ∀ (n j : Nat) (l : List α), n ≤ j → (insertAt n a l).get? (j + 1) = l.get? j
  | 0, j, l, _ => rfl
  | m + 1, j, [], _ => by
    show ([a] : List α).get? (j + 1) = List.get? [] j
    simp
  | m + 1, j, x :: xs, h =>
    match j, h with
    | j' + 1, h => by
      show (x :: insertAt m a xs).get? (j' + 2) = (x :: xs).get? (j' + 1)
      simp only [List.get?]
      exact insertAt_get?_ge a m j' xs (by omega)

theorem modifyAt_get?_self {α : Type} (f : α → α) :
    ∀ (n : Nat) (l : List α), (modifyAt n f l).get? n = (l.get? n).map f
  | 0, [] => rfl
  | _ + 1, [] => rfl
  | 0, x :: xs => rfl
  | m + 1, x :: xs => by
    show (x :: modifyAt m f xs).get? (m + 1) = ((x :: xs).get? (m + 1)).map f
    simp only [List.get?]
    exact modifyAt_get?_self f m xs

theorem modifyAt_get?_ne {α : Type} (f : α → α) :
    ∀ (n j : Nat) (l : List α), n ≠ j → (modifyAt n f l).get? j = l.get? j
  | 0, _, [], _ => rfl
  | _ + 1, _, [], _ => rfl
  | 0, 0, x :: xs, h => absurd rfl h
  | 0, _ + 1, x :: xs, _ => rfl
  | _ + 1, 0, x :: xs, _ => rfl
  | m + 1, j + 1, x :: xs, h => by
    show (x :: modifyAt m f xs).get? (j + 1) = (x :: xs).get? (j + 1)
    simp only [List.get?]
    exact modifyAt_get?_ne f m j xs (by omega)

theorem modifyAt_length {α : Type} (f : α → α) :
    ∀ (n : Nat) (l : List α), (modifyAt n f l).length = l.length
  | 0, [] => rfl
  | _ + 1, [] => rfl
  | 0, x :: xs => rfl
  | m + 1, x :: xs => by
    show (x :: modifyAt m f xs).length = (x :: xs).length
    simp [modifyAt_length f m xs]

theorem getLastD_mem : ∀ (l : List Nat) (d : Nat), l ≠ [] → l.getLastD d ∈ l
  | [], _, h => absurd rfl h
  | [a], d, _ => by simp
  | a :: b :: rest, d, _ => by
    rw [List.getLastD_cons]
    exact List.mem_cons_of_mem a (getLastD_mem (b :: rest) a (by simp))

theorem sorted_le_getLastD : ∀ (ids : List Nat), ids.Pairwise (· < ·) →
    ∀ i ∈ ids, i ≤ ids.getLastD 0
  | [], _, i, hi => absurd hi (by simp)
  | a :: rest, hp, i, hi => by
    rw [List.getLastD_cons]
    rcases List.mem_cons.1 hi with h1 | h2
    · subst h1
      match rest with
      | [] => simp
      | b :: rest' =>
        have hmem := getLastD_mem (b :: rest') i (by simp)
        have := (List.pairwise_cons.1 hp).1 _ hmem
        omega
    · have hrest := (List.pairwise_cons.1 hp).2
      have hle := sorted_le_getLastD rest hrest i h2
      match rest with
      | [] => cases h2
      | b :: rest' =>
        rw [List.getLastD_cons] at hle ⊢
        omega

theorem dupRenameLoop_aliases (uid0 : Nat) (name : String) :
    ∀ (ids : List Nat) (start : Nat) (acc : List String) (ops : List Op),
      (dupRenameLoop uid0 name ids start (acc, ops)).1 =
        acc ++ (List.range ids.length).map (fun t => renameAliasStr name uid0 (start + t))
  | [], start, acc, ops => by simp [dupRenameLoop]
  | id :: rest, start, acc, ops => by
    show (dupRenameLoop uid0 name rest (start + 1)
      (acc ++ [renameAliasStr name uid0 start],
       modifyAt id (fun o => Op.rename o name (renameAliasStr name uid0 start)) ops)).1 = _
    rw [dupRenameLoop_aliases uid0 name rest (start + 1)]
    rw [List.append_assoc]
    congr 1
    rw [List.length_cons, List.range_succ_eq_map, List.map_cons, List.map_map]
    rw [List.singleton_append]
    congr 1
    apply List.map_congr_left
    intro t _
    simp only [Function.comp_apply]
    congr 1
    omega

theorem dupRenameLoop_ops_length (uid0 : Nat) (name : String) :
    ∀ (ids : List Nat) (start : Nat) (acc : List String) (ops : List Op),
      (dupRenameLoop uid0 name ids start (acc, ops)).2.length = ops.length
  | [], _, _, _ => rfl
  | id :: rest, start, acc, ops => by
    show (dupRenameLoop uid0 name rest (start + 1)
      (acc ++ [renameAliasStr name uid0 start],
       modifyAt id (fun o => Op.rename o name (renameAliasStr name uid0 start)) ops)).2.length = _
    rw [dupRenameLoop_ops_length uid0 name rest (start + 1), modifyAt_length]

theorem dupRenameLoop_ops_untouched (uid0 : Nat) (name : String) :
    ∀ (ids : List Nat) (start : Nat) (acc : List String) (ops : List Op) (j : Nat),
      j ∉ ids →
      (dupRenameLoop uid0 name ids start (acc, ops)).2.get? j = ops.get? j
  | [], _, _, _, _, _ => rfl
  | id :: rest, start, acc, ops, j, hj => by
    show (dupRenameLoop uid0 name rest (start + 1)
      (acc ++ [renameAliasStr name uid0 start],
       modifyAt id (fun o => Op.rename o name (renameAliasStr name uid0 start)) ops)).2.get? j = _
    rw [dupRenameLoop_ops_untouched uid0 name rest (start + 1) _ _ j
      (fun hc => hj (List.mem_cons_of_mem _ hc))]
    exact modifyAt_get?_ne _ id j ops (fun he => hj (he ▸ List.mem_cons_self _ _))

theorem dupRenameLoop_ops_touched (uid0 : Nat) (name : String) :
    ∀ (ids : List Nat) (start : Nat) (acc : List String) (ops : List Op) (p i : Nat),
      ids.Pairwise (· ≠ ·) →
      ids.get? p = Option.some i →
      (dupRenameLoop uid0 name ids start (acc, ops)).2.get? i =
        (ops.get? i).map (fun o => Op.rename o name (renameAliasStr name uid0 (start + p)))
  | [], _, _, _, p, _, _, hp => by simp at hp
  | id :: rest, start, acc, ops, p, i, hpw, hp => by
    show (dupRenameLoop uid0 name rest (start + 1)
      (acc ++ [renameAliasStr name uid0 start],
       modifyAt id (fun o => Op.rename o name (renameAliasStr name uid0 start)) ops)).2.get? i = _
    match p, hp with
    | 0, hp =>
      have hid : id = i := Option.some.inj hp
      subst hid
      have hnot : id ∉ rest := fun hc => (List.pairwise_cons.1 hpw).1 id hc rfl
      rw [dupRenameLoop_ops_untouched uid0 name rest (start + 1) _ _ id hnot]
      rw [modifyAt_get?_self]
      rw [Nat.add_zero]
    | q + 1, hp =>
      have hq : rest.get? q = Option.some i := hp
      have hmem : i ∈ rest := List.get?_mem hq
      have hne : id ≠ i := fun he => (List.pairwise_cons.1 hpw).1 i hmem he
      rw [dupRenameLoop_ops_touched uid0 name rest (start + 1) _ _ q i
        (List.pairwise_cons.1 hpw).2 hq]
      rw [modifyAt_get?_ne _ id i ops hne]
      have harith : start + 1 + q = start + (q + 1) := by omega
      rw [harith]

/-- Claim C1: in the nested builder's duplicate-writer resolution, for a
gradient-output name collected with its writer indices, (i) a duplicated
EmptyName entry is left untouched, (ii) a single-writer entry is left
untouched and receives no accumulation operator, and (iii) an entry with
k >= 2 writers has each writer p renamed to RenameAlias(name, uid, p) for
p = 0..k-1 and exactly one accumulation leaf of the well-known accumulation
kind (spelled "add" in the source) with inputs X = all k rename aliases and
outputs Out = [name] inserted at position last-writer + 1, all other
children staying as they were. -/
theorem backwardNetPost_dup_resolution (uid0 : Nat) (bwds : List Op) (name : String)
    (ids : List Nat) (hc : collectDups bwds = [(name, ids)]) :
    (name = kEmptyVarName → backwardNetPost uid0 bwds = bwds) ∧
    (ids.length = 1 → backwardNetPost uid0 bwds = bwds) ∧
    (name ≠ kEmptyVarName → 2 ≤ ids.length → ids.Pairwise (· < ·) →
      (∀ i ∈ ids, i < bwds.length) →
      (backwardNetPost uid0 bwds).length = bwds.length + 1 ∧
      (backwardNetPost uid0 bwds).get? (ids.getLastD 0 + 1) =
        Option.some (addOp ((List.range ids.length).map
          (fun p => renameAliasStr name uid0 p)) name) ∧
      (∀ p i, ids.get? p = Option.some i →
        (backwardNetPost uid0 bwds).get? i =
          (bwds.get? i).map (fun o => Op.rename o name (renameAliasStr name uid0 p))) ∧
      (∀ j, j < bwds.length → j ∉ ids →
        (backwardNetPost uid0 bwds).get? (if j ≤ ids.getLastD 0 then j else j + 1) =
          bwds.get? j)) := by
  have hpost : backwardNetPost uid0 bwds =
      (sortInserts (processDup uid0 (bwds, []) (name, ids)).2).foldl
        (fun l pi => insertAt (pi.1 + 1) pi.2 l) (processDup uid0 (bwds, []) (name, ids)).1 := by
    unfold backwardNetPost
    rw [hc]
    rfl
  refine ⟨?_, ?_, ?_⟩
  · intro h
    have hpd : processDup uid0 (bwds, []) (name, ids) = (bwds, []) := by
      unfold processDup
      simp only
      rw [if_pos h]
    rw [hpost, hpd]
    rfl
  · intro hlen
    have hpd : processDup uid0 (bwds, []) (name, ids) = (bwds, []) := by
      unfold processDup
      simp only
      by_cases hemp : name = kEmptyVarName
      · rw [if_pos hemp]
      · rw [if_neg hemp, if_pos hlen]
    rw [hpost, hpd]
    rfl
  · intro hname hk hsort hbound
    have hlen1 : ¬(ids.length = 1) := by omega
    have hpd : processDup uid0 (bwds, []) (name, ids) =
        ((dupRenameLoop uid0 name ids 0 ([], bwds)).2,
         [(ids.getLastD 0, addOp (dupRenameLoop uid0 name ids 0 ([], bwds)).1 name)]) := by
      unfold processDup
      simp only
      rw [if_neg hname, if_neg hlen1]
      rfl
    have halias : (dupRenameLoop uid0 name ids 0 ([], bwds)).1 =
        (List.range ids.length).map (fun p => renameAliasStr name uid0 p) := by
      rw [dupRenameLoop_aliases]
      simp
    have hfold : backwardNetPost uid0 bwds =
        insertAt (ids.getLastD 0 + 1)
          (addOp ((List.range ids.length).map (fun p => renameAliasStr name uid0 p)) name)
          (dupRenameLoop uid0 name ids 0 ([], bwds)).2 := by
      rw [hpost, hpd, halias]
      rfl
    have hne : ids ≠ [] := by
      intro h0
      rw [h0] at hk
      simp at hk
    have hlast_mem : ids.getLastD 0 ∈ ids := getLastD_mem ids 0 hne
    have hlast_lt : ids.getLastD 0 < bwds.length := hbound _ hlast_mem
    have hoplen : (dupRenameLoop uid0 name ids 0 ([], bwds)).2.length = bwds.length :=
      dupRenameLoop_ops_length uid0 name ids 0 [] bwds
    have hnle : ids.getLastD 0 + 1 ≤ (dupRenameLoop uid0 name ids 0 ([], bwds)).2.length := by
      omega
    have hpairne : ids.Pairwise (· ≠ ·) :=
      hsort.imp (fun hlt => Nat.ne_of_lt hlt)
    refine ⟨?_, ?_, ?_, ?_⟩
    · rw [hfold, insertAt_length, hoplen]
    · rw [hfold, insertAt_get?_self _ _ _ hnle]
    · intro p i hpi
      have hi_mem : i ∈ ids := List.get?_mem hpi
      have hi_le : i ≤ ids.getLastD 0 := sorted_le_getLastD ids hsort i hi_mem
      rw [hfold, insertAt_get?_lt _ _ _ _ (by omega) hnle]
      have := dupRenameLoop_ops_touched uid0 name ids 0 [] bwds p i hpairne hpi
      rw [this]
      simp only [Nat.zero_add]
    · intro j hj hnotin
      by_cases hle : j ≤ ids.getLastD 0
      · rw [if_pos hle, hfold, insertAt_get?_lt _ _ _ _ (by omega) hnle]
        exact dupRenameLoop_ops_untouched uid0 name ids 0 [] bwds j hnotin
      · rw [if_neg hle, hfold, insertAt_get?_ge _ _ _ _ (by omega)]
        exact dupRenameLoop_ops_untouched uid0 name ids 0 [] bwds j hnotin

/-- Witness for C1: two concrete backward leaves both writing x@GRAD: the
resolved composite has one extra child, the accumulation op sits right after
the last writer, both writers are renamed to the two aliases, and a
composite whose only collected entry has a single writer is left untouched. -/
theorem backwardNetPost_dup_resolution_witness :
    (backwardNetPost 0
      [Op.leaf ⟨"op2_grad", [("OG", ["y@GRAD"])], [("XG", ["x@GRAD"])]⟩ StepNet.none,
       Op.leaf ⟨"op1_grad", [("OG", ["y@GRAD"])], [("XG", ["x@GRAD"])]⟩ StepNet.none]).length
      = 3 ∧
    (backwardNetPost 0
      [Op.leaf ⟨"op2_grad", [("OG", ["y@GRAD"])], [("XG", ["x@GRAD"])]⟩ StepNet.none,
       Op.leaf ⟨"op1_grad", [("OG", ["y@GRAD"])], [("XG", ["x@GRAD"])]⟩ StepNet.none]).get? 2
      = Option.some (addOp ((List.range 2).map
          (fun p => renameAliasStr "x@GRAD" 0 p)) "x@GRAD") ∧
    backwardNetPost 7
      [Op.leaf ⟨"op1_grad", [("OG", ["y@GRAD"])], [("XG", ["x@GRAD"])]⟩ StepNet.none] =
      [Op.leaf ⟨"op1_grad", [("OG", ["y@GRAD"])], [("XG", ["x@GRAD"])]⟩ StepNet.none] := by
  have h := backwardNetPost_dup_resolution 0
    [Op.leaf ⟨"op2_grad", [("OG", ["y@GRAD"])], [("XG", ["x@GRAD"])]⟩ StepNet.none,
     Op.leaf ⟨"op1_grad", [("OG", ["y@GRAD"])], [("XG", ["x@GRAD"])]⟩ StepNet.none]
    "x@GRAD" [0, 1] (by decide)
  have h3 := h.2.2 (by decide) (by decide) (by decide) (by decide)
  have h1 := backwardNetPost_dup_resolution 7
    [Op.leaf ⟨"op1_grad", [("OG", ["y@GRAD"])], [("XG", ["x@GRAD"])]⟩ StepNet.none]
    "x@GRAD" [0] (by decide)
  exact ⟨h3.1, h3.2.1, h1.2.1 (by decide)⟩

/- ===================== Claim C4 ===================== -/

/-- Claim C4 (code defect): on a concrete one-op block the flat variant
computes the expected gradient-descriptor list into its local scratch (the
spec's contract), but AppendBackwardOps returns the caller's block unchanged
because the final append loop in the source has no body, so nothing is ever
appended to the block. -/
theorem appendBackwardOps_discards_gradients :
    appendBackwardOps
      (fun d => if d.type = "mul"
        then [⟨"mul_grad", [("Out@GRAD", ["c@GRAD"])],
          [("X@GRAD", ["a@GRAD"]), ("Y@GRAD", ["b@GRAD"])]⟩]
        else [])
      [⟨"mul", [("X", ["a"]), ("Y", ["b"])], [("Out", ["c"])]⟩] [] =
      [⟨"mul", [("X", ["a"]), ("Y", ["b"])], [("Out", ["c"])]⟩] ∧
    appendBackwardScratch
      (fun d => if d.type = "mul"
        then [⟨"mul_grad", [("Out@GRAD", ["c@GRAD"])],
          [("X@GRAD", ["a@GRAD"]), ("Y@GRAD", ["b@GRAD"])]⟩]
        else [])
      [⟨"mul", [("X", ["a"]), ("Y", ["b"])], [("Out", ["c"])]⟩] [] =
      [⟨"mul_grad", [("Out@GRAD", ["c@GRAD"])],
        [("X@GRAD", ["a@GRAD"]), ("Y@GRAD", ["b@GRAD"])]⟩] := by
  decide
